import Mathlib

/-!
Verification development for the plist-yaml-plist conversion library.

The development shallowly embeds the library's core data model and
operations:

* the ordered document model (`Value`), preserving mapping key order;
* the null-pruning pass `clean_nones` (module `json_plist` / `plist_yaml`;
  the module source is not part of the checked tree, so the definition is
  modelled from the specification, cross-checked against the behaviour
  fixed by the unit tests in `tests/test_json_plist.py` and
  `tests/test_plist_yaml.py`);
* the recipe canonicalizer `optimise_autopkg_recipes` and the text
  formatter `format_autopkg_recipes` (module `handle_autopkg_recipes`;
  likewise modelled from the specification, cross-checked against
  `tests/test_handle_autopkg_recipes.py`);
* the driver operations `tidy_yaml` (from `plistyamlplist_lib/yaml_tidy.py`)
  and `yaml_plist` (from `plistyamlplist_lib/yaml_plist.py`), embedded over
  abstract format adapters (file reading plus `ruamel` `safe_load`, the
  YAML dumper, the plist dumper) as the specification treats those as
  external collaborators;
* the process-wide representer registration performed by
  `convert_to_yaml` (from `plistyamlplist_lib/__init__.py`), with
  `ruamel`'s `add_representer` modelled as an ordered association-map
  update, which is its documented dictionary-assignment semantics.
-/

namespace PlistYamlPlist

/-- Ordered document value: the in-memory representation shared by all
conversions.  Mappings are ordered association lists, so key order is part
of the value.  (The floating-point scalar of the Python model is not needed
by any property proved here and is omitted.) -/
inductive Value where
  | null
  | bool (b : Bool)
  | int (n : Int)
  | str (s : String)
  | seq (xs : List Value)
  | map (kvs : List (String × Value))
  deriving Repr

/-- `v.isNull` mirrors Python's `value is None` test. -/
def Value.isNull : Value → Bool
  | .null => true
  | _ => false

mutual
/-- Modelled from the spec: `clean_nones` (the module `json_plist.py` /
`plist_yaml.py` defining it is not in the checked tree).  Per spec §4.2,
`pruneNulls` recursively removes `Null` values: a mapping drops every key
whose value is `Null`, a sequence drops every `Null` element, remaining
entries keep their relative order and are pruned recursively, and
non-container scalars are returned unchanged.  This matches the behaviour
asserted by `test_clean_nones_comprehensive`, `test_clean_nones_function`
and `test_clean_nones_with_primitives`. -/
def clean_nones : Value → Value
  | .null => .null
  | .bool b => .bool b
  | .int n => .int n
  | .str s => .str s
  | .seq xs => .seq (cleanNonesList xs)
  | .map kvs => .map (cleanNonesMap kvs)

/-- Sequence part of `clean_nones`: drop `Null` elements, prune the rest. -/
def cleanNonesList : List Value → List Value
  | [] => []
  | x :: xs => if x.isNull then cleanNonesList xs else clean_nones x :: cleanNonesList xs

/-- Mapping part of `clean_nones`: drop keys bound to `Null`, prune the rest. -/
def cleanNonesMap : List (String × Value) → List (String × Value)
  | [] => []
  | (k, v) :: kvs =>
    if v.isNull then cleanNonesMap kvs else (k, clean_nones v) :: cleanNonesMap kvs
end

mutual
/-- `noNull v` holds when the value `v` is free of `Null` everywhere,
including at the root: `noNull .null = false`. -/
def noNull : Value → Bool
  | .null => false
  | .bool _ => true
  | .int _ => true
  | .str _ => true
  | .seq xs => noNullList xs
  | .map kvs => noNullMap kvs

/-- List part of `noNull`. -/
def noNullList : List Value → Bool
  | [] => true
  | x :: xs => noNull x && noNullList xs

/-- Mapping part of `noNull`. -/
def noNullMap : List (String × Value) → Bool
  | [] => true
  | (_, v) :: kvs => noNull v && noNullMap kvs
end

/-- `noNullInside v` holds when no `Null` occurs inside any mapping or
sequence of `v`, at any depth.  Unlike `noNull`, the root value itself is
allowed to be `Null`: containment only inspects container entries. -/
def noNullInside (v : Value) : Bool :=
  match v with
  | .seq xs => noNullList xs
  | .map kvs => noNullMap kvs
  | _ => true

/- ### Recipe canonicalizer (modelled from the spec) -/

/-- The fixed top-level priority sequence of spec §4.3. -/
def desiredOrder : List String :=
  ["Comment", "Description", "Identifier", "MinimumVersion", "Input", "Process"]

/-- The keys given special treatment in a process step (spec §4.3). -/
def specialStepKeys : List String := ["Processor", "Comment", "Arguments"]

/-- Keys of an ordered mapping, in order. -/
def keysOf (kvs : List (String × Value)) : List String := kvs.map Prod.fst

/-- Modelled from the spec: top-level key reordering of
`optimise_autopkg_recipes` (module `handle_autopkg_recipes.py`, not in the
checked tree).  Spec §4.3: emit the priority keys present, in the fixed
priority order; then all remaining keys except `ParentRecipeTrustInfo` in
their original relative order; then `ParentRecipeTrustInfo` last if
present. -/
def reorderTopKeys (kvs : List (String × Value)) : List (String × Value) :=
  (desiredOrder.flatMap fun k => kvs.filter fun kv => kv.1 == k)
    ++ (kvs.filter fun kv =>
        !(desiredOrder.contains kv.1) && kv.1 != "ParentRecipeTrustInfo")
    ++ (kvs.filter fun kv => kv.1 == "ParentRecipeTrustInfo")

/-- Modelled from the spec: process-step key reordering (spec §4.3).
`Processor` first when present; keys other than `Processor`, `Comment`,
`Arguments` next, in original relative order; then `Comment`; `Arguments`
always last when present. -/
def reorderStepKeys (kvs : List (String × Value)) : List (String × Value) :=
  (kvs.filter fun kv => kv.1 == "Processor")
    ++ (kvs.filter fun kv => !(specialStepKeys.contains kv.1))
    ++ (kvs.filter fun kv => kv.1 == "Comment")
    ++ (kvs.filter fun kv => kv.1 == "Arguments")

/-- Modelled from the spec: input-block key reordering (spec §4.3).
`NAME` first when present, all other keys after it in original relative
order; when `NAME` is absent this is the identity. -/
def reorderInputKeys (kvs : List (String × Value)) : List (String × Value) :=
  (kvs.filter fun kv => kv.1 == "NAME") ++ (kvs.filter fun kv => kv.1 != "NAME")

/-- Reorder every mapping element of the `Process` sequence. -/
def reorderProcess : Value → Value
  | .seq steps =>
    .seq (steps.map fun s =>
      match s with
      | .map kvs => .map (reorderStepKeys kvs)
      | v => v)
  | v => v

/-- Reorder the `Input` mapping. -/
def reorderInput : Value → Value
  | .map kvs => .map (reorderInputKeys kvs)
  | v => v

/-- Modelled from the spec: `optimise_autopkg_recipes` (module
`handle_autopkg_recipes.py`, not in the checked tree).  Spec §4.3 applied
bottom-up: process steps and the input block are reordered first, then the
top-level keys; non-mapping documents are returned unchanged. -/
def optimise_autopkg_recipes : Value → Value
  | .map kvs =>
    .map (reorderTopKeys (kvs.map fun kv =>
      if kv.1 == "Process" then (kv.1, reorderProcess kv.2)
      else if kv.1 == "Input" then (kv.1, reorderInput kv.2)
      else kv))
  | v => v

/- ### Text formatter (modelled from the spec)

The formatter operates on plain text, which is embedded as `List Char`;
a line is a `List Char` containing no newline character. -/

/-- A line of text: a list of characters, newline-free by construction. -/
abbrev Line := List Char

/-- Prepend a character to the first piece of a non-empty piece list
(creating a singleton piece for an empty list). -/
def consHead (a : Char) : List Line → List Line
  | [] => [[a]]
  | p :: ps => (a :: p) :: ps

/-- Split a text into its lines at newline characters.  An empty text has
one empty line; a trailing newline yields a trailing empty line. -/
def splitLines : List Char → List Line
  | [] => [[]]
  | c :: cs => if c = '\n' then [] :: splitLines cs else consHead c (splitLines cs)

/-- Join lines back into a text with newline separators. -/
def joinLines : List Line → List Char
  | [] => []
  | [l] => l
  | l :: ls => l ++ '\n' :: joinLines ls

/-- `noEsc x l` holds when the two-character escape sequence backslash-`x`
does not occur in `l`. -/
def noEsc (x : Char) : Line → Bool
  | a :: b :: rest => !(a == '\\' && b == x) && noEsc x (b :: rest)
  | _ => true

/-- Split a line at every occurrence of the escape sequence backslash-`x`,
scanning left to right; the separator characters are dropped. -/
def splitEsc (x : Char) : Line → List Line
  | [] => [[]]
  | [a] => [[a]]
  | a :: b :: rest =>
    if a == '\\' && b == x then [] :: splitEsc x rest
    else consHead a (splitEsc x (b :: rest))

/-- Replace every occurrence of the escape sequence backslash-`x` by
`rep`, scanning left to right. -/
def replaceEsc (x : Char) (rep : Line) : Line → Line
  | [] => []
  | [a] => [a]
  | a :: b :: rest =>
    if a == '\\' && b == x then rep ++ replaceEsc x rep rest
    else a :: replaceEsc x rep (b :: rest)

/-- Find the first occurrence of the three-character pattern
colon-space-double-quote in a line, returning the part strictly before it
and the part strictly after it. -/
def breakOnColonQuote : Line → Option (Line × Line)
  | [] => none
  | c :: cs =>
    if [':', ' ', '"'].isPrefixOf (c :: cs) then some ([], (c :: cs).drop 3)
    else
      match breakOnColonQuote cs with
      | some (p, r) => some (c :: p, r)
      | none => none

/-- Decoding applied to each piece of a rewritten multi-line scalar
(spec §4.4): escaped tabs expand to literal spacing (modelled as four
spaces) and escaped double quotes unescape to literal quote characters. -/
def decodePiece (c : Line) : Line :=
  replaceEsc '"' ['"'] (replaceEsc 't' [' ', ' ', ' ', ' '] c)

/-- Modelled from the spec: the multi-line scalar rewriting rule of
`format_autopkg_recipes` (module `handle_autopkg_recipes.py`, not in the
checked tree).  Spec §4.4: a double-quoted scalar line whose quoted content
contains an escaped newline becomes a block literal: the key line followed
by a pipe, then each decoded content line indented one level (two spaces)
deeper than the key.  All other lines are returned unchanged. -/
def rewriteLine (l : Line) : List Line :=
  match breakOnColonQuote l with
  | none => [l]
  | some (p, r) =>
    if r.getLast? = some '"' then
      if noEsc 'n' r.dropLast then [l]
      else
        (p ++ [':', ' ', '|'])
          :: (splitEsc 'n' r.dropLast).map fun piece =>
              (p.takeWhile (fun c => c == ' ') ++ [' ', ' ']) ++ decodePiece piece
    else [l]

/-- A line starting with one of the literal section markers `Input:`,
`Process:`, `ParentRecipeTrustInfo:` (spec §4.4, structural spacing). -/
def isSectionLine (l : Line) : Bool :=
  ("Input:".data.isPrefixOf l) || ("Process:".data.isPrefixOf l)
    || ("ParentRecipeTrustInfo:".data.isPrefixOf l)

/-- A process-step list entry line (spec §4.4, process-step spacing). -/
def isStepLine (l : Line) : Bool := "- Processor:".data.isPrefixOf l

/-- A `Process:` header line. -/
def isProcessHeader (l : Line) : Bool := "Process:".data.isPrefixOf l

/-- Modelled from the spec: the blank-line insertion condition of
`format_autopkg_recipes` (spec §4.4).  `prev` is the line immediately
preceding `l` (`none` when `l` is the first line).  A blank line is
inserted before a section-marker line, and before a process-step entry
line that does not immediately follow a `Process:` header — in both cases
only when the preceding line exists and is not already blank. -/
def needsBlank : Option Line → Line → Bool
  | none, _ => false
  | some p, l =>
    if p.isEmpty then false
    else if isSectionLine l then true
    else if isStepLine l then !(isProcessHeader p)
    else false

/-- Walk the lines inserting blank lines where `needsBlank` requires one;
`prev` tracks the previous line of the input. -/
def insertBlanks : Option Line → List Line → List Line
  | _, [] => []
  | prev, l :: ls =>
    if needsBlank prev l then [] :: l :: insertBlanks (some l) ls
    else l :: insertBlanks (some l) ls

/-- `chainOk prev ls`: no line of `ls` still requires a blank line to be
inserted before it, taking `prev` as the line preceding `ls`. -/
def chainOk : Option Line → List Line → Bool
  | _, [] => true
  | prev, l :: ls => !(needsBlank prev l) && chainOk (some l) ls

/-- The full formatter pipeline on lines: rewrite multi-line scalars, then
insert structural blank lines. -/
def formatLines (ls : List Line) : List Line :=
  insertBlanks none (ls.flatMap rewriteLine)

/-- Modelled from the spec: `format_autopkg_recipes` (module
`handle_autopkg_recipes.py`, not in the checked tree).  The readability
pass of spec §4.4 over serialized YAML text: split into lines, rewrite
escaped multi-line scalars into block literal form, insert structural
blank lines, and join the lines back together. -/
def format_autopkg_recipes (s : String) : String :=
  String.mk (joinLines (formatLines (splitLines s.data)))

/- ### Driver operations: `yaml_tidy.py` and `yaml_plist.py`

The format adapters (file opening, `ruamel` `safe_load`, the YAML and
plist dumpers) are external collaborators (spec §6); they are embedded as
abstract parameters.  Reading a path either produces a document, fails
with an I/O error (missing file), fails with `ruamel`'s distinct
`DuplicateKeyError`, or fails with a generic parse error — exactly the
interface spec §6 gives for `readYAML`. -/

/-- Outcome of opening a path and parsing it with `safe_load`. -/
inductive LoadResult where
  | ok (v : Value)
  | ioError
  | duplicateKeyError
  | parseError

/-- The abstract external adapters an operation runs against. -/
structure Adapters where
  load : String → LoadResult
  dumpYaml : Value → String
  dumpPlist : Value → String
  writable : String → Bool

/-- Observable outcome of an operation that returned normally: the
messages it printed, the paths it read, and the file it wrote (path and
content), if any. -/
structure OpResult where
  messages : List String
  readPaths : List String
  written : Option (String × String)
  deriving Repr, DecidableEq

/-- An exception that escapes an operation uncaught. -/
inductive PropagatedError where
  | parseError
  | duplicateKeyError
  deriving Repr, DecidableEq

/-- Python's `endswith`, embedded over the character list of the string
(executable under kernel reduction, unlike `String.endsWith`). -/
def endsWithStr (s suffix : String) : Bool := suffix.data.isSuffixOf s.data

/-- Embedding of `tidy_yaml` from `plistyamlplist_lib/yaml_tidy.py`.
The source: skip (with a message, before any read) unless the input path
ends in `.yaml`; read and parse, catching `IOError` and
`DuplicateKeyError` with distinct messages and returning; for a
`.recipe.yaml` path apply the canonicalizer, the YAML dump, and the text
formatter, otherwise just the YAML dump; write to the output path
(defaulting to the input path), catching `IOError` with a message.
Any other parse failure is not caught and propagates. -/
def tidy_yaml (a : Adapters) (in_path : String) (out_path : String := "") :
    Except PropagatedError OpResult :=
  if !(endsWithStr in_path ".yaml") then
    .ok ⟨["Not processing " ++ in_path ++ "\n"], [], none⟩
  else
    match a.load in_path with
    | .ioError => .ok ⟨["ERROR: " ++ in_path ++ " not found"], [in_path], none⟩
    | .duplicateKeyError =>
      .ok ⟨["ERROR: Duplicate key found in " ++ in_path ++ "\n"], [in_path], none⟩
    | .parseError => .error .parseError
    | .ok v =>
      let output :=
        if endsWithStr in_path ".recipe.yaml" then
          format_autopkg_recipes (a.dumpYaml (optimise_autopkg_recipes v))
        else a.dumpYaml v
      let op := if out_path = "" then in_path else out_path
      if a.writable op then
        .ok ⟨["Wrote to : " ++ op ++ "\n"], [in_path], some (op, output)⟩
      else
        .ok ⟨["ERROR: could not create " ++ op ++ " "], [in_path], none⟩

/-- Python's `str.splitlines` on our line model: like `splitLines` but a
trailing newline produces no trailing empty line. -/
def pySplitlines (l : List Char) : List Line :=
  let ps := splitLines l
  if ps.getLast? = some ([] : Line) then ps.dropLast else ps

/-- Embedding of `convert` from `plistyamlplist_lib/yaml_plist.py`:
dump to plist text, split into lines, append an empty line, and join with
newlines (normalizing the trailing newline). -/
def convertPlist (a : Adapters) (v : Value) : String :=
  String.mk (joinLines (pySplitlines (a.dumpPlist v).data ++ [[]]))

/-- Embedding of `yaml_plist` from `plistyamlplist_lib/yaml_plist.py`.
The source catches only `IOError` around the read; both `ruamel`'s
`DuplicateKeyError` and any other parse failure are uncaught there and
propagate out of the operation. -/
def yaml_plist (a : Adapters) (in_path out_path : String) :
    Except PropagatedError OpResult :=
  match a.load in_path with
  | .ioError => .ok ⟨["ERROR: could not find " ++ in_path ++ "\n"], [in_path], none⟩
  | .duplicateKeyError => .error .duplicateKeyError
  | .parseError => .error .parseError
  | .ok v =>
    if a.writable out_path then
      .ok ⟨["Written to " ++ out_path ++ "\n"], [in_path],
        some (out_path, convertPlist a v)⟩
    else
      .ok ⟨["ERROR: could not create " ++ out_path ++ "\n"], [in_path], none⟩

/- ### Process-wide representer registration (`plistyamlplist_lib/__init__.py`) -/

/-- The process-wide `ruamel` dumper registry, keyed by the registered
data type; registration order is observable, so it is an ordered
association list.  Entries map a type name to a representer name. -/
abbrev Registry := List (String × String)

/-- `ruamel`'s `add_representer`, modelled by its documented semantics:
assignment into the dumper's representer dictionary.  An existing key is
overwritten in place; a new key is appended.  The operation is total: it
cannot fail. -/
def add_representer (ty rep : String) (reg : Registry) : Registry :=
  if reg.any (fun p => p.1 == ty) then
    reg.map fun p => if p.1 == ty then (ty, rep) else p
  else reg ++ [(ty, rep)]

/-- The registration performed by every call of `convert_to_yaml`
(`plistyamlplist_lib/__init__.py` line 69):
`add_representer(OrderedDict, represent_ordereddict)`. -/
def convertToYamlRegistration (reg : Registry) : Registry :=
  add_representer "OrderedDict" "represent_ordereddict" reg

/-- Registry state after `n` successive `convert_to_yaml` calls. -/
def registrationsAfter : Nat → Registry → Registry
  | 0, reg => reg
  | n + 1, reg => registrationsAfter n (convertToYamlRegistration reg)

/- ### Characterizations used in the theorem statements -/

/-- The top-level keys of a document (empty for a non-mapping). -/
def topKeys : Value → List String
  | .map kvs => keysOf kvs
  | _ => []

/-- The canonical top-level key order, phrased directly on key lists as
the claim states it: priority keys present, in the fixed order; remaining
keys except `ParentRecipeTrustInfo` in original relative order;
`ParentRecipeTrustInfo` last when present. -/
def keyOrderSpecTop (ks : List String) : List String :=
  (desiredOrder.filter fun k => ks.contains k)
    ++ (ks.filter fun k => !(desiredOrder.contains k) && k != "ParentRecipeTrustInfo")
    ++ (if ks.contains "ParentRecipeTrustInfo" then ["ParentRecipeTrustInfo"] else [])

/-- The canonical process-step key order, phrased directly on key lists:
`Processor` first when present, the non-special keys in original relative
order, then `Comment`, then `Arguments`. -/
def keyOrderSpecStep (ks : List String) : List String :=
  (if ks.contains "Processor" then ["Processor"] else [])
    ++ (ks.filter fun k => !(specialStepKeys.contains k))
    ++ (if ks.contains "Comment" then ["Comment"] else [])
    ++ (if ks.contains "Arguments" then ["Arguments"] else [])

/-- The blank-insertion condition as the claim spells it: a blank line is
inserted exactly before a line starting with a section marker, or before a
process-step entry line not immediately following a `Process:` header —
and never before the first line or after an already-blank line. -/
def needsBlankSpec : Option Line → Line → Bool
  | none, _ => false
  | some p, l =>
    !p.isEmpty && (isSectionLine l || (isStepLine l && !(isProcessHeader p)))

/-- Positional characterization of blank insertion: pair every line with
its predecessor and emit a blank in front of exactly the lines whose
predecessor pair satisfies `needsBlankSpec`. -/
def insertBlanksSpec (ls : List Line) : List Line :=
  (ls.zip (none :: ls.map some)).flatMap fun x =>
    if needsBlankSpec x.2 x.1 then [[], x.1] else [x.1]

/-- An adapter family whose reads always succeed with a null document. -/
def trivialAdapters : Adapters :=
  ⟨fun _ => .ok .null, fun _ => "", fun _ => "", fun _ => true⟩

/-- An adapter family whose reads always fail with `DuplicateKeyError`. -/
def dupKeyAdapters : Adapters :=
  ⟨fun _ => .duplicateKeyError, fun _ => "", fun _ => "", fun _ => true⟩

/-- An adapter family whose reads always fail with a generic parse error. -/
def parseErrAdapters : Adapters :=
  ⟨fun _ => .parseError, fun _ => "", fun _ => "", fun _ => true⟩

/- ## Theorems -/

/- ### Null pruning -/

theorem clean_nones_isNull (v : Value) : (clean_nones v).isNull = v.isNull := by
  cases v <;> simp [clean_nones, Value.isNull]

theorem cleanNonesList_eq (xs : List Value) :
    cleanNonesList xs = (xs.filter fun x => !x.isNull).map clean_nones := by
  induction xs with
  | nil => simp [cleanNonesList]
  | cons x xs ih => by_cases h : x.isNull <;> simp [cleanNonesList, h, ih]

theorem cleanNonesMap_eq (kvs : List (String × Value)) :
    cleanNonesMap kvs
      = (kvs.filter fun kv => !kv.2.isNull).map fun kv => (kv.1, clean_nones kv.2) := by
  induction kvs with
  | nil => simp [cleanNonesMap]
  | cons kv kvs ih =>
    obtain ⟨k, v⟩ := kv
    by_cases h : v.isNull <;> simp [cleanNonesMap, h, ih]

mutual
theorem noNull_clean_nones : ∀ v : Value, v.isNull = false → noNull (clean_nones v) = true
  | .bool _, _ => by simp [clean_nones, noNull]
  | .int _, _ => by simp [clean_nones, noNull]
  | .str _, _ => by simp [clean_nones, noNull]
  | .seq xs, _ => by simpa [clean_nones, noNull] using noNullList_cleanNonesList xs
  | .map kvs, _ => by simpa [clean_nones, noNull] using noNullMap_cleanNonesMap kvs

theorem noNullList_cleanNonesList : ∀ xs : List Value, noNullList (cleanNonesList xs) = true
  | [] => by simp [cleanNonesList, noNullList]
  | x :: xs => by
    have ihl := noNullList_cleanNonesList xs
    by_cases h : x.isNull
    · simp [cleanNonesList, h, ihl]
    · have hx := noNull_clean_nones x (by simpa using h)
      simp [cleanNonesList, h, noNullList, hx, ihl]

theorem noNullMap_cleanNonesMap :
    ∀ kvs : List (String × Value), noNullMap (cleanNonesMap kvs) = true
  | [] => by simp [cleanNonesMap, noNullMap]
  | (_, v) :: kvs => by
    have ihm := noNullMap_cleanNonesMap kvs
    by_cases h : v.isNull
    · simp [cleanNonesMap, h, ihm]
    · have hv := noNull_clean_nones v (by simpa using h)
      simp [cleanNonesMap, h, noNullMap, hv, ihm]
end

theorem noNullInside_clean_nones (v : Value) : noNullInside (clean_nones v) = true := by
  cases v with
  | null => simp [clean_nones, noNullInside]
  | bool b => simp [clean_nones, noNullInside]
  | int n => simp [clean_nones, noNullInside]
  | str s => simp [clean_nones, noNullInside]
  | seq xs => simpa [clean_nones, noNullInside] using noNullList_cleanNonesList xs
  | map kvs => simpa [clean_nones, noNullInside] using noNullMap_cleanNonesMap kvs

/-- C3 counterexample: the claim "the null-pruning operation returns a
document containing no Null value at any depth" fails at the concrete
input `Null` itself: `clean_nones` returns `Null` unchanged there, a
document that still contains `Null`. -/
theorem clean_nones_null_counterexample :
    clean_nones Value.null = Value.null ∧ noNull (clean_nones Value.null) = false := by
  constructor
  · simp [clean_nones]
  · simp [clean_nones, noNull]

/-- C3 (amended): for every document, `clean_nones` returns a document
containing no `Null` inside any mapping or sequence at any depth (the
result itself is `Null` only for the input `Null`); every mapping key
whose value was `Null` is absent, key and value both; every sequence
element that was `Null` is absent, the survivors keeping their original
relative order; and the non-null falsy scalars `false`, `0` and the empty
string are left untouched. -/
theorem clean_nones_prunes_all_nested_nulls :
    (∀ v : Value, noNullInside (clean_nones v) = true) ∧
    (∀ xs : List Value,
      clean_nones (.seq xs) = .seq ((xs.filter fun x => !x.isNull).map clean_nones)) ∧
    (∀ kvs : List (String × Value),
      clean_nones (.map kvs)
        = .map ((kvs.filter fun kv => !kv.2.isNull).map fun kv => (kv.1, clean_nones kv.2))) ∧
    clean_nones (.bool false) = .bool false ∧
    clean_nones (.int 0) = .int 0 ∧
    clean_nones (.str "") = .str "" := by
  refine ⟨noNullInside_clean_nones, fun xs => ?_, fun kvs => ?_, ?_, ?_, ?_⟩
  · simp [clean_nones, cleanNonesList_eq]
  · simp [clean_nones, cleanNonesMap_eq]
  · simp [clean_nones]
  · simp [clean_nones]
  · simp [clean_nones]

/-- C10: null pruning applied to the `Null` scalar itself returns `Null`
unchanged — `Null` is removed only inside mappings and sequences — and
every non-container scalar argument is returned as-is. -/
theorem clean_nones_scalar_identity :
    clean_nones Value.null = Value.null ∧
    (∀ s, clean_nones (.str s) = .str s) ∧
    (∀ n : Int, clean_nones (.int n) = .int n) ∧
    (∀ b, clean_nones (.bool b) = .bool b) := by
  refine ⟨by simp [clean_nones], fun s => by simp [clean_nones],
    fun n => by simp [clean_nones], fun b => by simp [clean_nones]⟩

/- ### YAML tidy: skip behaviour (C7) -/

/-- C7: for every input path not ending in `.yaml`, `tidy_yaml` emits the
skip message, reads no path, writes nothing, and raises nothing, so the
file at the input path is left unchanged. -/
theorem tidy_yaml_skips_non_yaml (a : Adapters) (in_path out_path : String)
    (h : endsWithStr in_path ".yaml" = false) :
    tidy_yaml a in_path out_path
      = .ok ⟨["Not processing " ++ in_path ++ "\n"], [], none⟩ := by
  simp [tidy_yaml, h]

theorem tidy_yaml_skips_non_yaml_witness :
    endsWithStr "notes.txt" ".yaml" = false ∧
      tidy_yaml trivialAdapters "notes.txt" ""
        = .ok ⟨["Not processing " ++ "notes.txt" ++ "\n"], [], none⟩ :=
  ⟨by decide, tidy_yaml_skips_non_yaml trivialAdapters "notes.txt" "" (by decide)⟩

/- ### Error handling (C8) -/

/-- C8 counterexample: the claim says every conversion operation catches a
duplicate-key source and aborts with a message; but `yaml_plist` (which
catches only `IOError`) propagates `DuplicateKeyError` uncaught, emitting
no message and aborting its caller instead. -/
theorem yaml_plist_duplicate_key_propagates :
    yaml_plist dupKeyAdapters "settings.yaml" "settings"
      = .error .duplicateKeyError := rfl

/-- C8 (amended): the YAML tidy operation catches a duplicate-key source
and reports it with a distinct, explicitly labeled message, writing no
output; any other structural parse failure propagates out of it uncaught;
the YAML-to-plist operation `yaml_plist`, however, catches neither — both
the duplicate-key error and the generic parse error propagate out of it as
raised failures. -/
theorem duplicate_key_handling (a : Adapters) (in_path out_path : String) :
    (a.load in_path = .duplicateKeyError → endsWithStr in_path ".yaml" = true →
      tidy_yaml a in_path out_path
        = .ok ⟨["ERROR: Duplicate key found in " ++ in_path ++ "\n"], [in_path], none⟩) ∧
    (a.load in_path = .parseError → endsWithStr in_path ".yaml" = true →
      tidy_yaml a in_path out_path = .error .parseError) ∧
    (a.load in_path = .duplicateKeyError →
      yaml_plist a in_path out_path = .error .duplicateKeyError) ∧
    (a.load in_path = .parseError →
      yaml_plist a in_path out_path = .error .parseError) := by
  refine ⟨fun h1 h2 => ?_, fun h1 h2 => ?_, fun h1 => ?_, fun h1 => ?_⟩
  · simp [tidy_yaml, h1, h2]
  · simp [tidy_yaml, h1, h2]
  · simp [yaml_plist, h1]
  · simp [yaml_plist, h1]

theorem duplicate_key_handling_witness :
    tidy_yaml dupKeyAdapters "a.yaml" ""
        = .ok ⟨["ERROR: Duplicate key found in " ++ "a.yaml" ++ "\n"], ["a.yaml"], none⟩ ∧
      yaml_plist dupKeyAdapters "a.yaml" "out" = .error .duplicateKeyError ∧
      tidy_yaml parseErrAdapters "a.yaml" "" = .error .parseError ∧
      yaml_plist parseErrAdapters "a.yaml" "out" = .error .parseError :=
  ⟨(duplicate_key_handling dupKeyAdapters "a.yaml" "").1 rfl (by decide),
    (duplicate_key_handling dupKeyAdapters "a.yaml" "out").2.2.1 rfl,
    (duplicate_key_handling parseErrAdapters "a.yaml" "").2.1 rfl (by decide),
    (duplicate_key_handling parseErrAdapters "a.yaml" "out").2.2.2 rfl⟩

/- ### Representer registration (C9) -/

theorem add_representer_mem_key (ty rep : String) (reg : Registry) :
    (add_representer ty rep reg).any (fun p => p.1 == ty) = true := by
  unfold add_representer
  by_cases h : reg.any fun p => p.1 == ty
  · simp only [h, if_true]
    rw [List.any_eq_true] at h ⊢
    obtain ⟨p, hp, hty⟩ := h
    exact ⟨(ty, rep), List.mem_map.mpr ⟨p, hp, by simp [hty]⟩, by simp⟩
  · simp [h, List.any_append]

theorem add_representer_map_self (ty rep : String) (reg : Registry) :
    ((add_representer ty rep reg).map fun p => if p.1 == ty then (ty, rep) else p)
      = add_representer ty rep reg := by
  unfold add_representer
  by_cases h : reg.any fun p => p.1 == ty
  · simp only [h, if_true, List.map_map]
    apply List.map_congr_left
    intro p _
    by_cases hp : p.1 == ty <;> simp [hp, Function.comp]
  · have hf : reg.any (fun p => p.1 == ty) = false := by
      cases hb : reg.any fun p => p.1 == ty
      · rfl
      · exact absurd hb h
    have hall : ∀ p ∈ reg, (p.1 == ty) = false := by
      intro p hp
      exact Bool.eq_false_iff.mpr (List.any_eq_false.mp hf p hp)
    simp only [hf, Bool.false_eq_true, if_false, List.map_append]
    congr 1
    · refine (List.map_congr_left fun p hp => ?_).trans reg.map_id
      simp [hall p hp]
    · simp

theorem add_representer_idem (ty rep : String) (reg : Registry) :
    add_representer ty rep (add_representer ty rep reg) = add_representer ty rep reg := by
  have h1 := add_representer_mem_key ty rep reg
  conv_lhs => rw [add_representer]
  rw [if_pos h1]
  exact add_representer_map_self ty rep reg

theorem registrationsAfter_conv (reg : Registry) :
    ∀ n, registrationsAfter n (convertToYamlRegistration reg)
      = convertToYamlRegistration reg
  | 0 => rfl
  | n + 1 => by
    show registrationsAfter n (convertToYamlRegistration (convertToYamlRegistration reg))
      = convertToYamlRegistration reg
    have hid : convertToYamlRegistration (convertToYamlRegistration reg)
        = convertToYamlRegistration reg := add_representer_idem _ _ reg
    rw [hid]
    exact registrationsAfter_conv reg n

/-- C9: the ordered-mapping representer registration performed by
`convert_to_yaml` is idempotent — attempting it any positive number of
times leaves the process-wide registry exactly as a single registration
does, so its effect is performed at most once per process lifetime, and
repeating it is safe (the modelled `add_representer` is a total
dictionary assignment and cannot fail). -/
theorem ordered_mapping_registration_idempotent (reg : Registry) (n : Nat)
    (h : 1 ≤ n) :
    registrationsAfter n reg = convertToYamlRegistration reg ∧
    convertToYamlRegistration (convertToYamlRegistration reg)
      = convertToYamlRegistration reg := by
  obtain ⟨m, rfl⟩ : ∃ m, n = m + 1 := ⟨n - 1, by omega⟩
  exact ⟨registrationsAfter_conv reg m, add_representer_idem _ _ reg⟩

theorem ordered_mapping_registration_idempotent_witness :
    1 ≤ 3 ∧
      (registrationsAfter 3 [] = convertToYamlRegistration [] ∧
        convertToYamlRegistration (convertToYamlRegistration [])
          = convertToYamlRegistration []) :=
  ⟨by decide, ordered_mapping_registration_idempotent [] 3 (by decide)⟩

/- ### Recipe canonicalizer: key-order lemmas -/

theorem keysOf_append (l₁ l₂ : List (String × Value)) :
    keysOf (l₁ ++ l₂) = keysOf l₁ ++ keysOf l₂ := List.map_append _ _ _

theorem keysOf_filter_key (p : String → Bool) (kvs : List (String × Value)) :
    keysOf (kvs.filter fun kv => p kv.1) = (keysOf kvs).filter p := by
  unfold keysOf
  induction kvs with
  | nil => rfl
  | cons kv kvs ih =>
    by_cases h : p kv.1 <;> simp [List.filter_cons, h, ih]

theorem filter_eq_singleton_of_nodup (ks : List String) (h : ks.Nodup) (k : String) :
    ks.filter (fun a => a == k) = if ks.contains k then [k] else [] := by
  induction ks with
  | nil => simp
  | cons a ks ih =>
    rw [List.nodup_cons] at h
    by_cases hak : a = k
    · subst hak
      have hnil : ks.filter (fun x => x == a) = [] := by
        rw [List.filter_eq_nil_iff]
        intro x hx
        simp only [beq_iff_eq]
        intro hxa
        exact h.1 (hxa ▸ hx)
      simp [List.filter_cons, hnil]
    · have : (a == k) = false := by simpa using hak
      simp only [List.filter_cons, this, Bool.false_eq_true, if_false, ih h.2,
        List.contains_cons]
      simp [show (k == a) = false from by simpa using Ne.symm hak]

theorem keys_flatMap_filter (ord : List String) (kvs : List (String × Value))
    (h : (keysOf kvs).Nodup) :
    keysOf (ord.flatMap fun k => kvs.filter fun kv => kv.1 == k)
      = ord.filter fun k => (keysOf kvs).contains k := by
  induction ord with
  | nil => rfl
  | cons k ord ih =>
    have h1 : keysOf ((k :: ord).flatMap fun k => kvs.filter fun kv => kv.1 == k)
        = keysOf (kvs.filter fun kv => kv.1 == k)
          ++ keysOf (ord.flatMap fun k => kvs.filter fun kv => kv.1 == k) := by
      rw [List.flatMap_cons, keysOf_append]
    have h2 : keysOf (kvs.filter fun kv => kv.1 == k)
        = (keysOf kvs).filter (fun a => a == k) :=
      keysOf_filter_key (fun a => a == k) kvs
    rw [h1, h2, ih, filter_eq_singleton_of_nodup _ h k, List.filter_cons]
    by_cases hc : k ∈ keysOf kvs <;> simp [hc]

theorem keysOf_reorderTopKeys (kvs : List (String × Value))
    (h : (keysOf kvs).Nodup) :
    keysOf (reorderTopKeys kvs) = keyOrderSpecTop (keysOf kvs) := by
  unfold reorderTopKeys keyOrderSpecTop
  rw [keysOf_append, keysOf_append]
  have h2 : keysOf (kvs.filter fun kv =>
      !(desiredOrder.contains kv.1) && kv.1 != "ParentRecipeTrustInfo")
      = (keysOf kvs).filter fun k =>
        !(desiredOrder.contains k) && k != "ParentRecipeTrustInfo" :=
    keysOf_filter_key
      (fun a => !(desiredOrder.contains a) && a != "ParentRecipeTrustInfo") kvs
  have h3 : keysOf (kvs.filter fun kv => kv.1 == "ParentRecipeTrustInfo")
      = (keysOf kvs).filter (fun a => a == "ParentRecipeTrustInfo") :=
    keysOf_filter_key (fun a => a == "ParentRecipeTrustInfo") kvs
  rw [keys_flatMap_filter desiredOrder kvs h, h2, h3,
    filter_eq_singleton_of_nodup _ h "ParentRecipeTrustInfo"]

theorem mem_keyOrderSpecTop (ks : List String) (k : String) :
    k ∈ keyOrderSpecTop ks ↔ k ∈ ks := by
  unfold keyOrderSpecTop
  simp only [List.mem_append, List.mem_filter]
  constructor
  · rintro ((⟨_, hc⟩ | ⟨hk, _⟩) | hin)
    · simpa using hc
    · exact hk
    · by_cases hp : ks.contains "ParentRecipeTrustInfo"
      · rw [if_pos hp] at hin
        have : k = "ParentRecipeTrustInfo" := by simpa using hin
        subst this
        simpa using hp
      · rw [if_neg hp] at hin
        simp at hin
  · intro hk
    by_cases hd : k ∈ desiredOrder
    · exact Or.inl (Or.inl ⟨hd, by simpa using hk⟩)
    · by_cases hpti : k = "ParentRecipeTrustInfo"
      · subst hpti
        refine Or.inr ?_
        rw [if_pos (by simpa using hk)]
        simp
      · refine Or.inl (Or.inr ⟨hk, ?_⟩)
        simp only [Bool.and_eq_true, Bool.not_eq_true']
        constructor
        · simpa using hd
        · simpa using hpti

theorem keyOrderSpecTop_pti_last (ks : List String)
    (h : ks.contains "ParentRecipeTrustInfo" = true) :
    (keyOrderSpecTop ks).getLast? = some "ParentRecipeTrustInfo" ∧
      (keyOrderSpecTop ks).count "ParentRecipeTrustInfo" = 1 := by
  unfold keyOrderSpecTop
  rw [if_pos h]
  constructor
  · rw [List.append_assoc, List.getLast?_append_of_ne_nil _ (by simp)]
    rw [List.getLast?_append_of_ne_nil _ (by simp)]
    rfl
  · rw [List.count_append, List.count_append]
    have hA : ("ParentRecipeTrustInfo" ∉
        desiredOrder.filter fun k => ks.contains k) := by
      intro hmem
      have := (List.mem_filter.mp hmem).1
      simp [desiredOrder] at this
    have hB : ("ParentRecipeTrustInfo" ∉
        ks.filter fun k =>
          !(desiredOrder.contains k) && k != "ParentRecipeTrustInfo") := by
      intro hmem
      have := (List.mem_filter.mp hmem).2
      simp at this
    rw [List.count_eq_zero.mpr hA, List.count_eq_zero.mpr hB]
    rfl

/-- C1: top-level canonicalization emits the priority keys `Comment`,
`Description`, `Identifier`, `MinimumVersion`, `Input`, `Process` that are
present first and in that fixed order, then all remaining keys except
`ParentRecipeTrustInfo` in their original relative order, and, when
`ParentRecipeTrustInfo` is present, emits it last, strictly after every
other key; the key set is preserved. -/
theorem top_level_canonical_order (kvs : List (String × Value))
    (h : (keysOf kvs).Nodup) :
    topKeys (optimise_autopkg_recipes (.map kvs)) = keyOrderSpecTop (keysOf kvs) ∧
    (∀ k, k ∈ topKeys (optimise_autopkg_recipes (.map kvs)) ↔ k ∈ keysOf kvs) ∧
    ((keysOf kvs).contains "ParentRecipeTrustInfo" = true →
      (topKeys (optimise_autopkg_recipes (.map kvs))).getLast?
          = some "ParentRecipeTrustInfo" ∧
        (topKeys (optimise_autopkg_recipes (.map kvs))).count
          "ParentRecipeTrustInfo" = 1) := by
  have hpres : keysOf (kvs.map fun kv =>
      if kv.1 == "Process" then (kv.1, reorderProcess kv.2)
      else if kv.1 == "Input" then (kv.1, reorderInput kv.2)
      else kv) = keysOf kvs := by
    unfold keysOf
    rw [List.map_map]
    apply List.map_congr_left
    intro kv _
    by_cases h1 : kv.1 == "Process"
    · simp [h1, Function.comp]
    · by_cases h2 : kv.1 == "Input" <;> simp [h1, h2, Function.comp]
  have hmain : topKeys (optimise_autopkg_recipes (.map kvs))
      = keyOrderSpecTop (keysOf kvs) := by
    show keysOf (reorderTopKeys _) = _
    rw [keysOf_reorderTopKeys _ (by rw [hpres]; exact h), hpres]
  refine ⟨hmain, fun k => ?_, fun hp => ?_⟩
  · rw [hmain]
    exact mem_keyOrderSpecTop _ k
  · rw [hmain]
    exact keyOrderSpecTop_pti_last _ hp

theorem top_level_canonical_order_witness :
    topKeys (optimise_autopkg_recipes (.map
        [("Process", .seq []), ("Comment", .str "c"), ("Input", .map []),
          ("Description", .str "d"), ("Identifier", .str "i"),
          ("MinimumVersion", .str "1.0")]))
      = ["Comment", "Description", "Identifier", "MinimumVersion", "Input",
          "Process"] ∧
    (topKeys (optimise_autopkg_recipes (.map
        [("Description", .str "d"), ("ParentRecipeTrustInfo", .map []),
          ("Input", .map [])]))).getLast? = some "ParentRecipeTrustInfo" :=
  ⟨((top_level_canonical_order
      [("Process", .seq []), ("Comment", .str "c"), ("Input", .map []),
        ("Description", .str "d"), ("Identifier", .str "i"),
        ("MinimumVersion", .str "1.0")] (by decide)).1).trans (by decide),
    ((top_level_canonical_order
      [("Description", .str "d"), ("ParentRecipeTrustInfo", .map []),
        ("Input", .map [])] (by decide)).2.2 (by decide)).1⟩

theorem keysOf_reorderStepKeys (kvs : List (String × Value))
    (h : (keysOf kvs).Nodup) :
    keysOf (reorderStepKeys kvs) = keyOrderSpecStep (keysOf kvs) := by
  unfold reorderStepKeys keyOrderSpecStep
  rw [keysOf_append, keysOf_append, keysOf_append]
  have h1 : keysOf (kvs.filter fun kv => kv.1 == "Processor")
      = (keysOf kvs).filter (fun a => a == "Processor") :=
    keysOf_filter_key (fun a => a == "Processor") kvs
  have h2 : keysOf (kvs.filter fun kv => !(specialStepKeys.contains kv.1))
      = (keysOf kvs).filter (fun a => !(specialStepKeys.contains a)) :=
    keysOf_filter_key (fun a => !(specialStepKeys.contains a)) kvs
  have h3 : keysOf (kvs.filter fun kv => kv.1 == "Comment")
      = (keysOf kvs).filter (fun a => a == "Comment") :=
    keysOf_filter_key (fun a => a == "Comment") kvs
  have h4 : keysOf (kvs.filter fun kv => kv.1 == "Arguments")
      = (keysOf kvs).filter (fun a => a == "Arguments") :=
    keysOf_filter_key (fun a => a == "Arguments") kvs
  rw [h1, h2, h3, h4, filter_eq_singleton_of_nodup _ h "Processor",
    filter_eq_singleton_of_nodup _ h "Comment",
    filter_eq_singleton_of_nodup _ h "Arguments"]

theorem mem_keyOrderSpecStep (ks : List String) (k : String) :
    k ∈ keyOrderSpecStep ks ↔ k ∈ ks := by
  unfold keyOrderSpecStep
  simp only [List.mem_append, List.mem_filter]
  constructor
  · rintro (((hA | ⟨hk, _⟩) | hC) | hD)
    · by_cases hp : ks.contains "Processor"
      · rw [if_pos hp] at hA
        have hkp : k = "Processor" := by simpa using hA
        subst hkp
        simpa using hp
      · rw [if_neg hp] at hA
        simp at hA
    · exact hk
    · by_cases hp : ks.contains "Comment"
      · rw [if_pos hp] at hC
        have hkp : k = "Comment" := by simpa using hC
        subst hkp
        simpa using hp
      · rw [if_neg hp] at hC
        simp at hC
    · by_cases hp : ks.contains "Arguments"
      · rw [if_pos hp] at hD
        have hkp : k = "Arguments" := by simpa using hD
        subst hkp
        simpa using hp
      · rw [if_neg hp] at hD
        simp at hD
  · intro hk
    by_cases h1 : k = "Processor"
    · subst h1
      refine Or.inl (Or.inl (Or.inl ?_))
      rw [if_pos (by simpa using hk)]
      simp
    · by_cases h2 : k = "Comment"
      · subst h2
        refine Or.inl (Or.inr ?_)
        rw [if_pos (by simpa using hk)]
        simp
      · by_cases h3 : k = "Arguments"
        · subst h3
          refine Or.inr ?_
          rw [if_pos (by simpa using hk)]
          simp
        · refine Or.inl (Or.inl (Or.inr ⟨hk, ?_⟩))
          simp [specialStepKeys, h1, h2, h3]

theorem keyOrderSpecStep_head (ks : List String)
    (h : ks.contains "Processor" = true) :
    (keyOrderSpecStep ks).head? = some "Processor" := by
  unfold keyOrderSpecStep
  rw [if_pos h]
  rfl

theorem keyOrderSpecStep_args_last (ks : List String)
    (h : ks.contains "Arguments" = true) :
    (keyOrderSpecStep ks).getLast? = some "Arguments" ∧
      (keyOrderSpecStep ks).count "Arguments" = 1 := by
  unfold keyOrderSpecStep
  rw [if_pos h]
  constructor
  · rw [List.getLast?_append_of_ne_nil _ (by simp)]
    rfl
  · rw [List.count_append, List.count_append, List.count_append]
    have hA : "Arguments" ∉ (if ks.contains "Processor" then ["Processor"] else []) := by
      by_cases hp : ks.contains "Processor" <;> simp [hp]
    have hB : "Arguments" ∉ ks.filter fun k => !(specialStepKeys.contains k) := by
      intro hm
      have := (List.mem_filter.mp hm).2
      simp [specialStepKeys] at this
    have hC : "Arguments" ∉ (if ks.contains "Comment" then ["Comment"] else []) := by
      by_cases hp : ks.contains "Comment" <;> simp [hp]
    rw [List.count_eq_zero.mpr hA, List.count_eq_zero.mpr hB,
      List.count_eq_zero.mpr hC]
    rfl

/-- C2: for every process-step mapping, canonicalization emits the
`Processor` key first when present, then all keys other than `Processor`,
`Comment` and `Arguments` in their original relative order, then `Comment`
when present, and always emits `Arguments` as the (unique) final key when
it is present, even relative to `Comment`; the key set is preserved, and
the canonicalizer applies this reordering to every mapping element of the
`Process` sequence. -/
theorem process_step_canonical_order (kvs : List (String × Value))
    (h : (keysOf kvs).Nodup) :
    keysOf (reorderStepKeys kvs) = keyOrderSpecStep (keysOf kvs) ∧
    (∀ k, k ∈ keysOf (reorderStepKeys kvs) ↔ k ∈ keysOf kvs) ∧
    ((keysOf kvs).contains "Processor" = true →
      (keysOf (reorderStepKeys kvs)).head? = some "Processor") ∧
    ((keysOf kvs).contains "Arguments" = true →
      (keysOf (reorderStepKeys kvs)).getLast? = some "Arguments" ∧
      (keysOf (reorderStepKeys kvs)).count "Arguments" = 1) ∧
    (∀ steps : List Value,
      reorderProcess (.seq steps) = .seq (steps.map fun s =>
        match s with
        | .map skvs => .map (reorderStepKeys skvs)
        | v => v)) := by
  have hmain := keysOf_reorderStepKeys kvs h
  refine ⟨hmain, fun k => ?_, fun hp => ?_, fun ha => ?_, fun steps => rfl⟩
  · rw [hmain]
    exact mem_keyOrderSpecStep _ k
  · rw [hmain]
    exact keyOrderSpecStep_head _ hp
  · rw [hmain]
    exact keyOrderSpecStep_args_last _ ha

theorem process_step_canonical_order_witness :
    keysOf (reorderStepKeys
        [("Arguments", Value.map [("arg1", .str "value1")]),
          ("Processor", .str "TestProcessor"), ("Comment", .str "Test comment")])
      = ["Processor", "Comment", "Arguments"] ∧
    (keysOf (reorderStepKeys
        [("Arguments", Value.map [("arg1", .str "value1")]),
          ("Processor", .str "TestProcessor"),
          ("Comment", .str "Test comment")])).getLast? = some "Arguments" :=
  ⟨((process_step_canonical_order
      [("Arguments", Value.map [("arg1", .str "value1")]),
        ("Processor", .str "TestProcessor"), ("Comment", .str "Test comment")]
      (by decide)).1).trans (by decide),
    ((process_step_canonical_order
      [("Arguments", Value.map [("arg1", .str "value1")]),
        ("Processor", .str "TestProcessor"), ("Comment", .str "Test comment")]
      (by decide)).2.2.2.1 (by decide)).1⟩

/- ### Text formatter: line splitting -/

theorem consHead_ne_nil (a : Char) (ps : List Line) : consHead a ps ≠ [] := by
  cases ps <;> simp [consHead]

theorem splitLines_ne_nil : ∀ l : List Char, splitLines l ≠ []
  | [] => by simp [splitLines]
  | c :: cs => by
    by_cases h : c = '\n'
    · simp [splitLines, h]
    · simp only [splitLines, h, if_false]
      exact consHead_ne_nil _ _

theorem mem_splitLines_no_nl : ∀ (l : List Char) p, p ∈ splitLines l → '\n' ∉ p
  | [], p, hp => by
    simp [splitLines] at hp
    simp [hp]
  | c :: cs, p, hp => by
    by_cases h : c = '\n'
    · rw [splitLines, if_pos h] at hp
      rcases List.mem_cons.mp hp with rfl | hp
      · simp
      · exact mem_splitLines_no_nl cs p hp
    · rw [splitLines, if_neg h] at hp
      cases hs : splitLines cs with
      | nil => exact absurd hs (splitLines_ne_nil cs)
      | cons q qs =>
        rw [hs] at hp
        simp only [consHead, List.mem_cons] at hp
        rcases hp with rfl | hp
        · intro hmem
          rcases List.mem_cons.mp hmem with hc | hq
          · exact h hc.symm
          · exact mem_splitLines_no_nl cs q (by rw [hs]; simp) hq
        · exact mem_splitLines_no_nl cs p (by rw [hs]; simp [hp])

theorem splitLines_single (l : List Char) (h : '\n' ∉ l) : splitLines l = [l] := by
  induction l with
  | nil => rfl
  | cons c cs ih =>
    have hc : ¬(c = '\n') := fun hh => h (hh ▸ List.mem_cons_self _ _)
    rw [splitLines, if_neg hc, ih fun hm => h (List.mem_cons_of_mem _ hm)]
    rfl

theorem splitLines_append_nl (l : List Char) (h : '\n' ∉ l) (t : List Char) :
    splitLines (l ++ '\n' :: t) = l :: splitLines t := by
  induction l with
  | nil => simp [splitLines]
  | cons c cs ih =>
    have hc : ¬(c = '\n') := fun hh => h (hh ▸ List.mem_cons_self _ _)
    rw [List.cons_append, splitLines, if_neg hc,
      ih fun hm => h (List.mem_cons_of_mem _ hm)]
    rfl

theorem splitLines_joinLines : ∀ lss : List Line, lss ≠ [] →
    (∀ p ∈ lss, '\n' ∉ p) → splitLines (joinLines lss) = lss
  | [], h, _ => absurd rfl h
  | [l], _, hnl => by
    rw [joinLines, splitLines_single l (hnl l (by simp))]
  | l :: l' :: ls, _, hnl => by
    have hj : joinLines (l :: l' :: ls) = l ++ '\n' :: joinLines (l' :: ls) := rfl
    rw [hj, splitLines_append_nl l (hnl l (by simp)),
      splitLines_joinLines (l' :: ls) (List.cons_ne_nil _ _)
        fun p hp => hnl p (by simp [hp])]

/- ### Text formatter: escape sequences -/

theorem noEsc_tail (x a : Char) (l : Line) (h : noEsc x (a :: l) = true) :
    noEsc x l = true := by
  cases l with
  | nil => simp [noEsc]
  | cons b rest =>
    simp only [noEsc, Bool.and_eq_true] at h
    exact h.2

theorem noEsc_pair (x a b : Char) (rest : Line)
    (h : noEsc x (a :: b :: rest) = true) : (a == '\\' && b == x) = false := by
  simp only [noEsc, Bool.and_eq_true] at h
  have h1 := h.1
  cases hab : (a == '\\' && b == x)
  · rfl
  · rw [hab] at h1
    simp at h1

theorem noEsc_cons (x a : Char) (l : Line) (h : noEsc x l = true)
    (hh : a ≠ '\\' ∨ l.head? ≠ some x) : noEsc x (a :: l) = true := by
  cases l with
  | nil => simp [noEsc]
  | cons b rest =>
    simp only [noEsc, Bool.and_eq_true]
    refine ⟨?_, h⟩
    rcases hh with hh | hh
    · simp [hh]
    · have hb : b ≠ x := by simpa using hh
      simp [hb]

theorem noEsc_of_no_bs (x : Char) (l : Line) (h : ∀ c ∈ l, c ≠ '\\') :
    noEsc x l = true := by
  induction l with
  | nil => simp [noEsc]
  | cons a l ih =>
    exact noEsc_cons x a l (ih fun c hc => h c (by simp [hc]))
      (Or.inl (h a (by simp)))

theorem noEsc_append (x : Char) (u v : Line) (hu : ∀ c ∈ u, c ≠ '\\')
    (hv : noEsc x v = true) : noEsc x (u ++ v) = true := by
  induction u with
  | nil => simpa using hv
  | cons a u ih =>
    rw [List.cons_append]
    exact noEsc_cons x a (u ++ v) (ih fun c hc => hu c (by simp [hc]))
      (Or.inl (hu a (by simp)))

theorem noEsc_append_right (x : Char) (u v : Line)
    (h : noEsc x (u ++ v) = true) : noEsc x v = true := by
  induction u with
  | nil => simpa using h
  | cons a u ih =>
    rw [List.cons_append] at h
    exact ih (noEsc_tail x a _ h)

theorem noEsc_dropLast (x : Char) : ∀ l : Line, noEsc x l = true →
    noEsc x l.dropLast = true
  | [], _ => by simp [noEsc]
  | [a], _ => by simp [noEsc, List.dropLast]
  | a :: b :: rest, h => by
    have h1 := noEsc_pair x a b rest h
    have h2 := noEsc_tail x a _ h
    cases rest with
    | nil => simp [noEsc, List.dropLast]
    | cons c rest' =>
      have ih := noEsc_dropLast x (b :: c :: rest') h2
      show noEsc x (a :: (b :: c :: rest').dropLast) = true
      by_cases hab : a = '\\'
      · subst hab
        have hbx : b ≠ x := by
          intro hbx
          subst hbx
          simp at h1
        refine noEsc_cons x '\\' _ ih (Or.inr ?_)
        intro hhead
        have hd : (b :: c :: rest').dropLast = b :: (c :: rest').dropLast := rfl
        rw [hd] at hhead
        exact hbx (by simpa using hhead)
      · exact noEsc_cons x a _ ih (Or.inl hab)

theorem splitEsc_ne_nil (x : Char) : ∀ l : Line, splitEsc x l ≠ []
  | [] => by simp [splitEsc]
  | [a] => by simp [splitEsc]
  | a :: b :: rest => by
    by_cases h : (a == '\\' && b == x) = true
    · simp [splitEsc, h]
    · simp only [splitEsc, h, if_false]
      exact consHead_ne_nil _ _

theorem splitEsc_head (x : Char) : ∀ (l : Line) q qs,
    splitEsc x l = q :: qs → q = [] ∨ q.head? = l.head?
  | [], q, qs, h => by
    simp [splitEsc] at h
    exact Or.inl h.1
  | [a], q, qs, h => by
    simp [splitEsc] at h
    exact Or.inr (by simp [h.1])
  | a :: b :: rest, q, qs, h => by
    by_cases hs : (a == '\\' && b == x) = true
    · rw [splitEsc, if_pos hs] at h
      have hq : q = [] := (List.cons.injEq _ _ _ _ ▸ h).1.symm
      exact Or.inl hq
    · rw [splitEsc, if_neg hs] at h
      cases hsp : splitEsc x (b :: rest) with
      | nil => exact absurd hsp (splitEsc_ne_nil x _)
      | cons q' qs' =>
        rw [hsp] at h
        simp only [consHead] at h
        have hq : q = a :: q' := (List.cons.injEq _ _ _ _ ▸ h).1.symm
        exact Or.inr (by simp [hq])

theorem noEsc_splitEsc (x : Char) : ∀ (l : Line) p, p ∈ splitEsc x l →
    noEsc x p = true
  | [], p, h => by
    simp [splitEsc] at h
    simp [h, noEsc]
  | [a], p, h => by
    simp [splitEsc] at h
    simp [h, noEsc]
  | a :: b :: rest, p, h => by
    by_cases hs : (a == '\\' && b == x) = true
    · rw [splitEsc, if_pos hs] at h
      rcases List.mem_cons.mp h with rfl | h
      · simp [noEsc]
      · exact noEsc_splitEsc x rest p h
    · rw [splitEsc, if_neg hs] at h
      cases hsp : splitEsc x (b :: rest) with
      | nil => exact absurd hsp (splitEsc_ne_nil x _)
      | cons q qs =>
        rw [hsp] at h
        simp only [consHead, List.mem_cons] at h
        rcases h with rfl | h
        · have hq : noEsc x q = true :=
            noEsc_splitEsc x (b :: rest) q (by rw [hsp]; simp)
          rcases splitEsc_head x (b :: rest) q qs hsp with hq0 | hq0
          · subst hq0
            simp [noEsc]
          · refine noEsc_cons x a q hq ?_
            by_cases hab : a = '\\'
            · right
              rw [hq0]
              intro hbx
              have hb : b = x := by simpa using hbx
              subst hab hb
              simp at hs
            · exact Or.inl hab
        · exact noEsc_splitEsc x (b :: rest) p (by rw [hsp]; simp [h])

theorem mem_splitEsc_mem (x : Char) : ∀ (l : Line) p c, p ∈ splitEsc x l →
    c ∈ p → c ∈ l
  | [], p, c, hp, hc => by
    simp [splitEsc] at hp
    subst hp
    simp at hc
  | [a], p, c, hp, hc => by
    simp [splitEsc] at hp
    subst hp
    exact hc
  | a :: b :: rest, p, c, hp, hc => by
    by_cases hs : (a == '\\' && b == x) = true
    · rw [splitEsc, if_pos hs] at hp
      rcases List.mem_cons.mp hp with rfl | hp
      · simp at hc
      · exact List.mem_cons_of_mem _ (List.mem_cons_of_mem _
          (mem_splitEsc_mem x rest p c hp hc))
    · rw [splitEsc, if_neg hs] at hp
      cases hsp : splitEsc x (b :: rest) with
      | nil => exact absurd hsp (splitEsc_ne_nil x _)
      | cons q qs =>
        rw [hsp] at hp
        simp only [consHead, List.mem_cons] at hp
        rcases hp with rfl | hp
        · rcases List.mem_cons.mp hc with rfl | hc
          · simp
          · exact List.mem_cons_of_mem _
              (mem_splitEsc_mem x (b :: rest) q c (by rw [hsp]; simp) hc)
        · exact List.mem_cons_of_mem _
            (mem_splitEsc_mem x (b :: rest) p c (by rw [hsp]; simp [hp]) hc)

theorem noEsc_replaceEsc (x n : Char) (rep : Line) (hrep : rep ≠ [])
    (hbs : ∀ c ∈ rep, c ≠ '\\') (hn : ∀ c ∈ rep, c ≠ n) :
    ∀ l : Line, noEsc n l = true → noEsc n (replaceEsc x rep l) = true
  | [], _ => by simp [replaceEsc, noEsc]
  | [a], _ => by simp [replaceEsc, noEsc]
  | a :: b :: rest, h => by
    have hrest2 : noEsc n (b :: rest) = true := noEsc_tail n a _ h
    by_cases hs : (a == '\\' && b == x) = true
    · have hrest : noEsc n rest = true := noEsc_tail n b _ hrest2
      have hout := noEsc_replaceEsc x n rep hrep hbs hn rest hrest
      rw [replaceEsc, if_pos hs]
      exact noEsc_append n rep _ hbs hout
    · have hout := noEsc_replaceEsc x n rep hrep hbs hn (b :: rest) hrest2
      rw [replaceEsc, if_neg hs]
      by_cases hab : a = '\\'
      · have hbn : b ≠ n := by
          have := noEsc_pair n a b rest h
          intro hbn
          subst hab hbn
          simp at this
        refine noEsc_cons n a _ hout (Or.inr ?_)
        cases rest with
        | nil =>
          show (replaceEsc x rep [b]).head? ≠ some n
          rw [replaceEsc]
          intro hcon
          exact hbn (by simpa using hcon)
        | cons c rest' =>
          by_cases hbc : (b == '\\' && c == x) = true
          · show (replaceEsc x rep (b :: c :: rest')).head? ≠ some n
            rw [replaceEsc, if_pos hbc]
            cases hr : rep with
            | nil => exact absurd hr hrep
            | cons r0 rep' =>
              intro hcon
              have : r0 = n := by simpa using hcon
              exact hn r0 (by rw [hr]; simp) this
          · show (replaceEsc x rep (b :: c :: rest')).head? ≠ some n
            rw [replaceEsc, if_neg hbc]
            intro hcon
            exact hbn (by simpa using hcon)
      · exact noEsc_cons n a _ hout (Or.inl hab)

theorem mem_replaceEsc (x : Char) (rep : Line) : ∀ (l : Line) c,
    c ∈ replaceEsc x rep l → c ∈ l ∨ c ∈ rep
  | [], c, h => by simp [replaceEsc] at h
  | [a], c, h => by
    simp [replaceEsc] at h
    simp [h]
  | a :: b :: rest, c, h => by
    by_cases hs : (a == '\\' && b == x) = true
    · rw [replaceEsc, if_pos hs] at h
      rcases List.mem_append.mp h with h | h
      · exact Or.inr h
      · rcases mem_replaceEsc x rep rest c h with h | h
        · exact Or.inl (by simp [h])
        · exact Or.inr h
    · rw [replaceEsc, if_neg hs] at h
      rcases List.mem_cons.mp h with rfl | h
      · exact Or.inl (by simp)
      · rcases mem_replaceEsc x rep (b :: rest) c h with h | h
        · exact Or.inl (List.mem_cons_of_mem _ h)
        · exact Or.inr h

/- ### Text formatter: scalar rewriting -/

theorem pat_prefix_decomp (l : Line) (h : [':', ' ', '"'].isPrefixOf l = true) :
    l = ':' :: ' ' :: '"' :: l.drop 3 := by
  match l with
  | [] => simp [List.isPrefixOf] at h
  | [c1] => simp [List.isPrefixOf] at h
  | [c1, c2] => simp [List.isPrefixOf] at h
  | c1 :: c2 :: c3 :: t =>
    simp only [List.isPrefixOf, Bool.and_eq_true, beq_iff_eq] at h
    obtain ⟨h1, h2, h3, _⟩ := h
    subst h1
    subst h2
    subst h3
    rfl

theorem breakOnColonQuote_eq : ∀ (l : Line) p r,
    breakOnColonQuote l = some (p, r) → l = p ++ ':' :: ' ' :: '"' :: r
  | [], p, r, h => by simp [breakOnColonQuote] at h
  | c :: cs, p, r, h => by
    by_cases hp : ([':', ' ', '"'].isPrefixOf (c :: cs)) = true
    · rw [breakOnColonQuote, if_pos hp] at h
      simp only [Option.some.injEq, Prod.mk.injEq] at h
      obtain ⟨hp1, hr⟩ := h
      subst hp1
      subst hr
      simpa using pat_prefix_decomp (c :: cs) hp
    · rw [breakOnColonQuote, if_neg hp] at h
      cases hb : breakOnColonQuote cs with
      | none =>
        rw [hb] at h
        simp at h
      | some pr =>
        obtain ⟨p', r'⟩ := pr
        rw [hb] at h
        simp only [Option.some.injEq, Prod.mk.injEq] at h
        obtain ⟨hp1, hr⟩ := h
        subst hp1
        subst hr
        have hcs := breakOnColonQuote_eq cs p' r' hb
        rw [List.cons_append]
        rw [← hcs]

theorem getLast?_append_singleton (u : Line) (a : Char) :
    (u ++ [a]).getLast? = some a := by
  rw [List.getLast?_append_of_ne_nil _ (by simp)]
  rfl

theorem rewriteLine_of_break_none (l : Line)
    (hb : breakOnColonQuote l = none) : rewriteLine l = [l] := by
  simp only [rewriteLine, hb]

theorem rewriteLine_of_getLast_ne (l p r : Line)
    (hb : breakOnColonQuote l = some (p, r)) (hg : r.getLast? ≠ some '"') :
    rewriteLine l = [l] := by
  simp only [rewriteLine, hb]
  rw [if_neg hg]

theorem rewriteLine_of_noEsc_content (l p r : Line)
    (hb : breakOnColonQuote l = some (p, r)) (hg : r.getLast? = some '"')
    (hc : noEsc 'n' r.dropLast = true) : rewriteLine l = [l] := by
  simp only [rewriteLine, hb]
  rw [if_pos hg, if_pos hc]

theorem rewriteLine_of_esc_content (l p r : Line)
    (hb : breakOnColonQuote l = some (p, r)) (hg : r.getLast? = some '"')
    (hc : noEsc 'n' r.dropLast = false) :
    rewriteLine l = (p ++ [':', ' ', '|'])
      :: (splitEsc 'n' r.dropLast).map fun piece =>
          (p.takeWhile (fun c => c == ' ') ++ [' ', ' ']) ++ decodePiece piece := by
  simp only [rewriteLine, hb]
  rw [if_pos hg, if_neg (by simp [hc])]

theorem rewriteLine_eq_self_of_noEsc (l : Line) (h : noEsc 'n' l = true) :
    rewriteLine l = [l] := by
  cases hb : breakOnColonQuote l with
  | none => exact rewriteLine_of_break_none l hb
  | some pr =>
    obtain ⟨p, r⟩ := pr
    have hl := breakOnColonQuote_eq l p r hb
    have hr : noEsc 'n' r = true := by
      have h1 : noEsc 'n' (p ++ ':' :: ' ' :: '"' :: r) = true := hl ▸ h
      have h2 := noEsc_append_right 'n' p _ h1
      exact noEsc_tail 'n' _ _ (noEsc_tail 'n' _ _ (noEsc_tail 'n' _ _ h2))
    have hcontent : noEsc 'n' r.dropLast = true := noEsc_dropLast 'n' r hr
    by_cases hg : r.getLast? = some '"'
    · exact rewriteLine_of_noEsc_content l p r hb hg hcontent
    · exact rewriteLine_of_getLast_ne l p r hb hg

theorem rewriteLine_pipe_end (m u : Line) (hm : m = u ++ [':', ' ', '|']) :
    rewriteLine m = [m] := by
  cases hb : breakOnColonQuote m with
  | none => exact rewriteLine_of_break_none m hb
  | some pr =>
    obtain ⟨p', r'⟩ := pr
    have hdec := breakOnColonQuote_eq m p' r' hb
    have hlast : m.getLast? = some '|' := by
      rw [hm, show u ++ [':', ' ', '|'] = (u ++ [':', ' ']) ++ ['|'] by simp]
      exact getLast?_append_singleton _ _
    cases hr : r' with
    | nil =>
      have hq : m.getLast? = some '"' := by
        rw [hdec, hr, show p' ++ [':', ' ', '"'] = (p' ++ [':', ' ']) ++ ['"'] by simp]
        exact getLast?_append_singleton _ _
      rw [hlast] at hq
      simp at hq
    | cons rc rrest =>
      apply rewriteLine_of_getLast_ne m p' r' hb
      have hg : r'.getLast? = some '|' := by
        rw [← hlast, hdec,
          show p' ++ ':' :: ' ' :: '"' :: r' = (p' ++ [':', ' ', '"']) ++ r' by simp]
        rw [List.getLast?_append_of_ne_nil _ (by simp [hr])]
      rw [hg]
      simp

theorem mem_takeWhile_space (p : Line) (c : Char)
    (h : c ∈ p.takeWhile fun c => c == ' ') : c = ' ' := by
  induction p with
  | nil => simp [List.takeWhile] at h
  | cons a p ih =>
    rw [List.takeWhile] at h
    by_cases ha : (a == ' ') = true
    · rw [ha] at h
      rcases List.mem_cons.mp h with rfl | h
      · simpa using ha
      · exact ih h
    · rw [Bool.eq_false_iff.mpr ha] at h
      simp at h

theorem noEsc_indent_decode (p piece : Line) (hp1 : noEsc 'n' piece = true) :
    noEsc 'n' ((p.takeWhile (fun c => c == ' ') ++ [' ', ' '])
      ++ decodePiece piece) = true := by
  have hp2 : noEsc 'n' (decodePiece piece) = true := by
    unfold decodePiece
    refine noEsc_replaceEsc '"' 'n' ['"'] (by simp)
      (by intro c hc'; simp at hc'; simp [hc'])
      (by intro c hc'; simp at hc'; simp [hc']) _ ?_
    exact noEsc_replaceEsc 't' 'n' [' ', ' ', ' ', ' '] (by simp)
      (by intro c hc'; simp at hc'; simp [hc'])
      (by intro c hc'; simp at hc'; simp [hc']) _ hp1
  refine noEsc_append 'n' _ _ ?_ hp2
  intro c hcm
  rcases List.mem_append.mp hcm with hcm | hcm
  · rw [mem_takeWhile_space p c hcm]
    simp
  · simp at hcm
    simp [hcm]

theorem isPrefixOf_append_self (u v : Line) : u.isPrefixOf (u ++ v) = true := by
  induction u with
  | nil => simp [List.isPrefixOf]
  | cons a u ih => simp [List.isPrefixOf, ih]

theorem rewriteLine_fixed (l m : Line) (hm : m ∈ rewriteLine l) :
    rewriteLine m = [m] := by
  cases hb : breakOnColonQuote l with
  | none =>
    rw [rewriteLine_of_break_none l hb] at hm
    simp at hm
    subst hm
    exact rewriteLine_of_break_none m hb
  | some pr =>
    obtain ⟨p, r⟩ := pr
    by_cases hg : r.getLast? = some '"'
    · by_cases hc : noEsc 'n' r.dropLast = true
      · rw [rewriteLine_of_noEsc_content l p r hb hg hc] at hm
        simp at hm
        subst hm
        exact rewriteLine_of_noEsc_content m p r hb hg hc
      · have hcf : noEsc 'n' r.dropLast = false := Bool.eq_false_iff.mpr hc
        rw [rewriteLine_of_esc_content l p r hb hg hcf] at hm
        rcases List.mem_cons.mp hm with rfl | hm
        · exact rewriteLine_pipe_end _ p rfl
        · obtain ⟨piece, hpiece, rfl⟩ := List.mem_map.mp hm
          exact rewriteLine_eq_self_of_noEsc _
            (noEsc_indent_decode p piece (noEsc_splitEsc 'n' _ piece hpiece))
    · rw [rewriteLine_of_getLast_ne l p r hb hg] at hm
      simp at hm
      subst hm
      exact rewriteLine_of_getLast_ne m p r hb hg

theorem rewriteLine_ne_nil (l : Line) : rewriteLine l ≠ [] := by
  cases hb : breakOnColonQuote l with
  | none => simp [rewriteLine_of_break_none l hb]
  | some pr =>
    obtain ⟨p, r⟩ := pr
    by_cases hg : r.getLast? = some '"'
    · by_cases hc : noEsc 'n' r.dropLast = true
      · simp [rewriteLine_of_noEsc_content l p r hb hg hc]
      · simp [rewriteLine_of_esc_content l p r hb hg (Bool.eq_false_iff.mpr hc)]
    · simp [rewriteLine_of_getLast_ne l p r hb hg]

theorem rewriteLine_no_nl (l m : Line) (hl : '\n' ∉ l) (hm : m ∈ rewriteLine l) :
    '\n' ∉ m := by
  cases hb : breakOnColonQuote l with
  | none =>
    rw [rewriteLine_of_break_none l hb] at hm
    simp at hm
    subst hm
    exact hl
  | some pr =>
    obtain ⟨p, r⟩ := pr
    have hdec := breakOnColonQuote_eq l p r hb
    have hpm : ∀ c, c ∈ p → c ∈ l := fun c hc => by
      rw [hdec]
      simp [hc]
    have hrm : ∀ c, c ∈ r → c ∈ l := fun c hc => by
      rw [hdec]
      simp [hc]
    by_cases hg : r.getLast? = some '"'
    · by_cases hc : noEsc 'n' r.dropLast = true
      · rw [rewriteLine_of_noEsc_content l p r hb hg hc] at hm
        simp at hm
        subst hm
        exact hl
      · rw [rewriteLine_of_esc_content l p r hb hg (Bool.eq_false_iff.mpr hc)] at hm
        rcases List.mem_cons.mp hm with rfl | hm
        · intro hnl
          rcases List.mem_append.mp hnl with hnl | hnl
          · exact hl (hpm _ hnl)
          · simp at hnl
        · obtain ⟨piece, hpiece, rfl⟩ := List.mem_map.mp hm
          intro hnl
          rcases List.mem_append.mp hnl with hnl | hnl
          · rcases List.mem_append.mp hnl with hnl | hnl
            · exact absurd (mem_takeWhile_space p _ hnl) (by decide)
            · simp at hnl
          · rcases mem_replaceEsc '"' ['"'] _ _ hnl with hnl2 | hnl2
            · rcases mem_replaceEsc 't' [' ', ' ', ' ', ' '] _ _ hnl2 with hnl3 | hnl3
              · have hinr : '\n' ∈ r.dropLast :=
                  mem_splitEsc_mem 'n' r.dropLast piece '\n' hpiece hnl3
                exact hl (hrm _ (List.dropLast_sublist r |>.subset hinr))
              · simp at hnl3
            · simp at hnl2
    · rw [rewriteLine_of_getLast_ne l p r hb hg] at hm
      simp at hm
      subst hm
      exact hl

/- ### Text formatter: blank-line insertion -/

theorem needsBlank_nil_line (prev : Option Line) : needsBlank prev [] = false := by
  cases prev with
  | none => rfl
  | some p =>
    unfold needsBlank
    by_cases hp : p.isEmpty
    · simp [hp]
    · simp [hp, show isSectionLine [] = false from by decide,
        show isStepLine [] = false from by decide]

theorem needsBlank_empty_prev (l : Line) : needsBlank (some []) l = false := by
  unfold needsBlank
  simp [List.isEmpty]

theorem insertBlanks_idem : ∀ (ls : List Line) (prev : Option Line),
    insertBlanks prev (insertBlanks prev ls) = insertBlanks prev ls
  | [], _ => rfl
  | l :: ls, prev => by
    by_cases h : needsBlank prev l = true
    · rw [insertBlanks, if_pos h]
      rw [insertBlanks, if_neg (by simp [needsBlank_nil_line])]
      rw [insertBlanks, if_neg (by simp [needsBlank_empty_prev])]
      rw [insertBlanks_idem ls (some l)]
    · rw [insertBlanks, if_neg h]
      rw [insertBlanks, if_neg h]
      rw [insertBlanks_idem ls (some l)]

theorem mem_insertBlanks : ∀ (ls : List Line) (prev : Option Line) m,
    m ∈ insertBlanks prev ls → m ∈ ls ∨ m = []
  | [], _, m, h => by simp [insertBlanks] at h
  | l :: ls, prev, m, h => by
    by_cases hn : needsBlank prev l = true
    · rw [insertBlanks, if_pos hn] at h
      rcases List.mem_cons.mp h with rfl | h
      · exact Or.inr rfl
      · rcases List.mem_cons.mp h with rfl | h
        · exact Or.inl (by simp)
        · rcases mem_insertBlanks ls (some l) m h with h | h
          · exact Or.inl (by simp [h])
          · exact Or.inr h
    · rw [insertBlanks, if_neg hn] at h
      rcases List.mem_cons.mp h with rfl | h
      · exact Or.inl (by simp)
      · rcases mem_insertBlanks ls (some l) m h with h | h
        · exact Or.inl (by simp [h])
        · exact Or.inr h

theorem insertBlanks_ne_nil (ls : List Line) (prev : Option Line)
    (h : ls ≠ []) : insertBlanks prev ls ≠ [] := by
  cases ls with
  | nil => exact absurd rfl h
  | cons l ls =>
    by_cases hn : needsBlank prev l = true
    · rw [insertBlanks, if_pos hn]
      simp
    · rw [insertBlanks, if_neg hn]
      simp

theorem chainOk_insertBlanks : ∀ (ls : List Line) (prev : Option Line),
    chainOk prev (insertBlanks prev ls) = true
  | [], _ => rfl
  | l :: ls, prev => by
    by_cases h : needsBlank prev l = true
    · rw [insertBlanks, if_pos h]
      rw [chainOk, chainOk]
      simp only [needsBlank_nil_line, needsBlank_empty_prev, Bool.not_false,
        Bool.true_and]
      exact chainOk_insertBlanks ls (some l)
    · rw [insertBlanks, if_neg h]
      rw [chainOk]
      simp only [Bool.eq_false_iff.mpr h, Bool.not_false, Bool.true_and]
      exact chainOk_insertBlanks ls (some l)

theorem filter_insertBlanks : ∀ (ls : List Line) (prev : Option Line),
    (insertBlanks prev ls).filter (fun l => !l.isEmpty)
      = ls.filter (fun l => !l.isEmpty)
  | [], _ => rfl
  | l :: ls, prev => by
    by_cases h : needsBlank prev l = true
    · rw [insertBlanks, if_pos h]
      rw [List.filter_cons, List.filter_cons, List.filter_cons]
      simp only [List.isEmpty_nil, Bool.not_true, Bool.false_eq_true, if_false]
      rw [filter_insertBlanks ls (some l)]
    · rw [insertBlanks, if_neg h]
      rw [List.filter_cons, List.filter_cons]
      rw [filter_insertBlanks ls (some l)]

theorem needsBlank_eq_spec (prev : Option Line) (l : Line) :
    needsBlank prev l = needsBlankSpec prev l := by
  cases prev with
  | none => rfl
  | some p =>
    unfold needsBlank needsBlankSpec
    by_cases h1 : p.isEmpty <;> by_cases h2 : isSectionLine l
      <;> by_cases h3 : isStepLine l <;> simp [h1, h2, h3]

theorem insertBlanks_eq_spec : ∀ (ls : List Line) (prev : Option Line),
    insertBlanks prev ls
      = (ls.zip (prev :: ls.map some)).flatMap fun x =>
          if needsBlankSpec x.2 x.1 then [[], x.1] else [x.1]
  | [], _ => rfl
  | l :: ls, prev => by
    have hz : (l :: ls).zip (prev :: (l :: ls).map some)
        = (l, prev) :: ls.zip (some l :: ls.map some) := rfl
    rw [hz, List.flatMap_cons]
    by_cases h : needsBlank prev l = true
    · rw [insertBlanks, if_pos h]
      rw [if_pos (by rw [← needsBlank_eq_spec]; exact h)]
      rw [insertBlanks_eq_spec ls (some l)]
      rfl
    · rw [insertBlanks, if_neg h]
      rw [if_neg (by rw [← needsBlank_eq_spec]; exact h)]
      rw [insertBlanks_eq_spec ls (some l)]
      rfl

/- ### Text formatter: the full pipeline -/

theorem flatMap_rewriteLine_fixed : ∀ ms : List Line,
    (∀ m ∈ ms, rewriteLine m = [m]) → ms.flatMap rewriteLine = ms
  | [], _ => rfl
  | m :: ms, h => by
    rw [List.flatMap_cons, h m (by simp),
      flatMap_rewriteLine_fixed ms fun m' hm' => h m' (by simp [hm'])]
    rfl

theorem formatLines_idem (ls : List Line) :
    formatLines (formatLines ls) = formatLines ls := by
  unfold formatLines
  have h1 : (insertBlanks none (ls.flatMap rewriteLine)).flatMap rewriteLine
      = insertBlanks none (ls.flatMap rewriteLine) := by
    apply flatMap_rewriteLine_fixed
    intro m hm
    rcases mem_insertBlanks _ _ _ hm with hm | hm
    · obtain ⟨l, _, hml⟩ := List.mem_flatMap.mp hm
      exact rewriteLine_fixed l m hml
    · subst hm
      rfl
  rw [h1, insertBlanks_idem]

theorem formatLines_no_nl (ls : List Line) (h : ∀ p ∈ ls, '\n' ∉ p) :
    ∀ m ∈ formatLines ls, '\n' ∉ m := by
  intro m hm
  rcases mem_insertBlanks _ _ _ hm with hm | hm
  · obtain ⟨l, hl, hml⟩ := List.mem_flatMap.mp hm
    exact rewriteLine_no_nl l m (h l hl) hml
  · subst hm
    simp

theorem formatLines_ne_nil (ls : List Line) (h : ls ≠ []) :
    formatLines ls ≠ [] := by
  unfold formatLines
  apply insertBlanks_ne_nil
  cases ls with
  | nil => exact absurd rfl h
  | cons l ls =>
    rw [List.flatMap_cons]
    intro hcon
    exact rewriteLine_ne_nil l (List.append_eq_nil.mp hcon).1

/-- C4: the text formatter is idempotent — applying
`format_autopkg_recipes` to its own output is a no-op: blank lines already
inserted are recognized as present and not duplicated, and previously
rewritten block scalars are no longer quoted scalars and are not matched
again by the quoted-string rule. -/
theorem formatter_idempotent (s : String) :
    format_autopkg_recipes (format_autopkg_recipes s)
      = format_autopkg_recipes s := by
  unfold format_autopkg_recipes
  congr 1
  have hdata : (String.mk (joinLines (formatLines (splitLines s.data)))).data
      = joinLines (formatLines (splitLines s.data)) := rfl
  rw [hdata,
    splitLines_joinLines _ (formatLines_ne_nil _ (splitLines_ne_nil _))
      (formatLines_no_nl _ (mem_splitLines_no_nl s.data)),
    formatLines_idem]

/-- C5: the formatter inserts one blank line before any line beginning
with the literal markers `Input:`, `Process:`, `ParentRecipeTrustInfo:`
(unless the marker is the first line or a blank line already immediately
precedes it), and one blank line before every process-step entry line
`- Processor: ...` except an entry immediately following a `Process:`
header: the insertion pass equals the positional specification
`insertBlanksSpec`, its output satisfies every spacing requirement
(`chainOk`), it changes nothing but blank lines, and on the spec's example
only the second step entry receives a blank line. -/
theorem formatter_blank_line_insertion (ls : List Line) :
    insertBlanks none ls = insertBlanksSpec ls ∧
    chainOk none (insertBlanks none ls) = true ∧
    (insertBlanks none ls).filter (fun l => !l.isEmpty)
      = ls.filter (fun l => !l.isEmpty) ∧
    format_autopkg_recipes "Process:\n- Processor: A\n- Processor: B"
      = "Process:\n- Processor: A\n\n- Processor: B" := by
  refine ⟨?_, chainOk_insertBlanks ls none, filter_insertBlanks ls none, ?_⟩
  · rw [insertBlanks_eq_spec]
    rfl
  · rfl

/-- C6: the formatter rewrites each double-quoted scalar whose content
contains an escaped newline into block-literal form — the key line
followed by a pipe, then each decoded line indented one level deeper, with
no residual escaped-newline sequence — while a line with no quoted scalar,
and every ordinary single-line quoted scalar (content free of escaped
newlines), is left byte-for-byte untouched, including any escaped tabs or
quotes it contains. -/
theorem formatter_scalar_rewrite (l p r : Line) :
    (breakOnColonQuote l = none → rewriteLine l = [l]) ∧
    (breakOnColonQuote l = some (p, r) → r.getLast? = some '"' →
      noEsc 'n' r.dropLast = true → rewriteLine l = [l]) ∧
    (breakOnColonQuote l = some (p, r) → r.getLast? = some '"' →
      noEsc 'n' r.dropLast = false →
      rewriteLine l = (p ++ [':', ' ', '|'])
          :: (splitEsc 'n' r.dropLast).map (fun piece =>
            (p.takeWhile (fun c => c == ' ') ++ [' ', ' ']) ++ decodePiece piece) ∧
      ∀ m ∈ (rewriteLine l).tail, noEsc 'n' m = true ∧
        (p.takeWhile (fun c => c == ' ') ++ [' ', ' ']).isPrefixOf m = true) ∧
    format_autopkg_recipes "Description: \"Line 1\\nLine 2\\nLine 3\""
      = "Description: |\n  Line 1\n  Line 2\n  Line 3" := by
  refine ⟨fun hb => rewriteLine_of_break_none l hb,
    fun hb hg hc => rewriteLine_of_noEsc_content l p r hb hg hc,
    fun hb hg hc => ⟨rewriteLine_of_esc_content l p r hb hg hc, ?_⟩, by rfl⟩
  intro m hm
  rw [rewriteLine_of_esc_content l p r hb hg hc] at hm
  simp only [List.tail_cons] at hm
  obtain ⟨piece, hpiece, rfl⟩ := List.mem_map.mp hm
  exact ⟨noEsc_indent_decode p piece (noEsc_splitEsc 'n' _ piece hpiece),
    isPrefixOf_append_self _ _⟩

theorem formatter_scalar_rewrite_witness :
    rewriteLine ("Description: \"Text with \\\"quotes\\\"\"".data)
        = [("Description: \"Text with \\\"quotes\\\"\"".data)] ∧
      rewriteLine ("Description: \"Line 1\\nLine 2\\nLine 3\"".data)
        = [("Description: |".data), ("  Line 1".data), ("  Line 2".data),
            ("  Line 3".data)] :=
  ⟨(formatter_scalar_rewrite ("Description: \"Text with \\\"quotes\\\"\"".data)
      ("Description".data) ("Text with \\\"quotes\\\"\"".data)).2.1
      (by decide) (by decide) (by decide),
    ((formatter_scalar_rewrite ("Description: \"Line 1\\nLine 2\\nLine 3\"".data)
      ("Description".data) ("Line 1\\nLine 2\\nLine 3\"".data)).2.2.1
      (by decide) (by decide) (by decide)).1.trans (by decide)⟩

end PlistYamlPlist
